import Mathlib

/-!
Shallow embedding of the core of `bl02b1_tif_compressor`, a streaming batch
archiver for numbered TIFF frames, together with theorems checking its
specification against the code.

Conventions used throughout the embedding:
* Byte streams are `List Nat` (each element a byte value); all multi-byte
  integers in the archive container are little-endian, exactly as written by
  `serializeMetadata` / `compressFilesToLZ4` (src/unnamed/part_004) and read by
  `deserializeMetadata` / `decompressLZ4Archive` (src/unnamed/part_001).
* The LZ4 block primitives (`LZ4_compress_fast`, `LZ4_decompress_safe`) are
  external library calls, so they appear as function parameters `c` and `d`;
  `c payload = none` models a non-positive return of `LZ4_compress_fast`, and
  `d data capacity = none` models a negative return of `LZ4_decompress_safe`.
* C++ `int` division truncates toward zero, which is `Int.tdiv`.
* `std::set`/`std::map` are modelled as lists with insert-if-absent /
  update-in-place operations; the claims under study do not depend on the
  iteration order of these containers.
-/

namespace BL02

/-! ## Little-endian byte encoding (archive container, §3 of the format) -/

/-- Little-endian encoding of a `uint32` value (four bytes), as produced by the
`output.append(reinterpret_cast<const char*>(&v), sizeof(uint32_t))` calls in
`serializeMetadata` (src/unnamed/part_004). -/
def le32 (n : Nat) : List Nat :=
  [n % 256, n / 256 % 256, n / 65536 % 256, n / 16777216 % 256]

/-- Little-endian encoding of a `uint64`/`size_t` value (eight bytes). -/
def le64 (n : Nat) : List Nat :=
  [n % 256, n / 256 % 256, n / 65536 % 256, n / 16777216 % 256,
   n / 4294967296 % 256, n / 1099511627776 % 256,
   n / 281474976710656 % 256, n / 72057594037927936 % 256]

/-- Value of a little-endian byte list. -/
def readLE : List Nat → Nat
  | [] => 0
  | b :: bs => b + 256 * readLE bs

/-- Read a `uint32` from the head of a byte stream; `none` when fewer than four
bytes remain (the `dataSize < offset + sizeof(uint32_t)` checks of
`deserializeMetadata`, src/unnamed/part_001). -/
def take32? : List Nat → Option (Nat × List Nat)
  | b0 :: b1 :: b2 :: b3 :: rest => some (readLE [b0, b1, b2, b3], rest)
  | _ => none

/-- Read a `uint64`/`size_t` from the head of a byte stream. -/
def take64? : List Nat → Option (Nat × List Nat)
  | b0 :: b1 :: b2 :: b3 :: b4 :: b5 :: b6 :: b7 :: rest =>
      some (readLE [b0, b1, b2, b3, b4, b5, b6, b7], rest)
  | _ => none

/-- Read `len` raw bytes from the head of a byte stream; `none` when fewer than
`len` bytes remain (the `dataSize < offset + filenameLen` style checks). -/
def takeBytes? (len : Nat) (bs : List Nat) : Option (List Nat × List Nat) :=
  if len ≤ bs.length then some (bs.take len, bs.drop len) else none

/-! ## Archive metadata (src/unnamed/part_004 and src/unnamed/part_001) -/

/-- Mirrors `struct FileMetadata` of src/unnamed/part_004: filename and
extension are byte strings, sizes are `size_t`. -/
structure FileMetadata where
  filename : List Nat
  extension : List Nat
  originalSize : Nat
  dataOffset : Nat
deriving DecidableEq

/-- Magic number `"LZ4A"`, `LZ4_ARCHIVE_MAGIC` in src/unnamed/part_004. -/
def LZ4_ARCHIVE_MAGIC : Nat := 0x41345A4C

/-- Archive version, `LZ4_ARCHIVE_VERSION` in src/unnamed/part_004. -/
def LZ4_ARCHIVE_VERSION : Nat := 1

/-- One metadata record as emitted by the loop body of `serializeMetadata`
(src/unnamed/part_004 lines 51-68): `uint32` name length, name bytes, `uint32`
extension length, extension bytes, `size_t` original size, `size_t` offset.
The `static_cast<uint32_t>` on the lengths is the `% 2^32` implicit in `le32`. -/
def serializeEntry (m : FileMetadata) : List Nat :=
  le32 m.filename.length ++ m.filename ++ le32 m.extension.length ++ m.extension ++
    le64 m.originalSize ++ le64 m.dataOffset

/-- The metadata section: magic, version, `uint64` file count, then the
records, exactly as `serializeMetadata` (src/unnamed/part_004 lines 35-69). -/
def serializeMetadata (ms : List FileMetadata) : List Nat :=
  le32 LZ4_ARCHIVE_MAGIC ++ le32 LZ4_ARCHIVE_VERSION ++ le64 ms.length ++
    (ms.map serializeEntry).flatten

/-- One iteration of the read loop of `deserializeMetadata`
(src/unnamed/part_001 lines 59-124): each field is bounds-checked before it is
read, and a failed check aborts with `false` (here `none`). -/
def parseEntry (bs : List Nat) : Option (FileMetadata × List Nat) :=
  match take32? bs with
  | none => none
  | some (filenameLen, bs1) =>
    match takeBytes? filenameLen bs1 with
    | none => none
    | some (filename, bs2) =>
      match take32? bs2 with
      | none => none
      | some (extensionLen, bs3) =>
        match takeBytes? extensionLen bs3 with
        | none => none
        | some (extension, bs4) =>
          match take64? bs4 with
          | none => none
          | some (originalSize, bs5) =>
            match take64? bs5 with
            | none => none
            | some (dataOffset, bs6) =>
              some (⟨filename, extension, originalSize, dataOffset⟩, bs6)

/-- The `for (uint64_t i = 0; i < fileCount; ++i)` loop of
`deserializeMetadata`. -/
def parseEntries : Nat → List Nat → Option (List FileMetadata × List Nat)
  | 0, bs => some ([], bs)
  | Nat.succ k, bs =>
    match parseEntry bs with
    | none => none
    | some (m, bs1) =>
      match parseEntries k bs1 with
      | none => none
      | some (ms, bs2) => some (m :: ms, bs2)

/-- `deserializeMetadata` (src/unnamed/part_001 lines 9-127): checks the magic
number, then the version, then reads `fileCount` records.  Trailing bytes after
the last record are ignored, as in the source. -/
def deserializeMetadata (bs : List Nat) : Option (List FileMetadata) :=
  match take32? bs with
  | none => none
  | some (magic, bs1) =>
    if magic ≠ LZ4_ARCHIVE_MAGIC then none
    else
      match take32? bs1 with
      | none => none
      | some (version, bs2) =>
        if version ≠ LZ4_ARCHIVE_VERSION then none
        else
          match take64? bs2 with
          | none => none
          | some (fileCount, bs3) =>
            match parseEntries fileCount bs3 with
            | none => none
            | some (ms, _) => some ms

/-! ## Compression pipeline (`compressFilesToLZ4`, src/unnamed/part_004) -/

/-- `fs::path::extension()` applied to a filename given as a byte string: the
suffix starting at the last `'.'` (byte 46), empty when there is no dot, when
the dot is the leading character, or for the special names "." and "..". -/
def extOf (name : List Nat) : List Nat :=
  if name = [46] ∨ name = [46, 46] then []
  else if (name.reverse.takeWhile (fun b => b ≠ 46)).reverse.length = name.length then []
  else if name.length = (name.reverse.takeWhile (fun b => b ≠ 46)).reverse.length + 1 then []
  else 46 :: (name.reverse.takeWhile (fun b => b ≠ 46)).reverse

/-- The concatenated uncompressed payload: `combinedData` of
`compressFilesToLZ4` (src/unnamed/part_004 lines 224-231), the in-order
concatenation of the file contents. -/
def payloadOf (files : List (List Nat × List Nat)) : List Nat :=
  (files.map Prod.snd).flatten

/-- The metadata list built by `compressFilesToLZ4` (src/unnamed/part_004
lines 198-215): each record carries the filename, its extension, the byte
count, and the running offset `currentOffset` of the file inside the payload. -/
def buildMetadataFrom : Nat → List (List Nat × List Nat) → List FileMetadata
  | _, [] => []
  | off, (name, data) :: rest =>
    ⟨name, extOf name, data.length, off⟩ :: buildMetadataFrom (off + data.length) rest

/-- `LZ4_MAX_INPUT_SIZE`: above this input size `LZ4_compressBound` returns 0
and `compressFilesToLZ4` fails before compressing. -/
def LZ4_MAX_INPUT_SIZE : Nat := 0x7E000000

/-- `compressFilesToLZ4` (src/unnamed/part_004 lines 125-337) as a function
from the per-file `(filename, contents)` pairs — in the iteration order of the
`std::set<std::string>` argument, after the parallel read and the sort by
original index — to the archive byte stream it writes, or `none` on failure.
The compression primitive `c` stands for `LZ4_compress_fast`.  The function
compresses, serializes the metadata and returns the framed archive; it invokes
no decompressor anywhere. -/
def compressFilesToLZ4 (c : List Nat → Option (List Nat))
    (files : List (List Nat × List Nat)) : Option (List Nat) :=
  if files = [] then none
  else
    let combinedData := payloadOf files
    if LZ4_MAX_INPUT_SIZE < combinedData.length then none
    else
      match c combinedData with
      | none => none
      | some compressed =>
        let serializedMetadata := serializeMetadata (buildMetadataFrom 0 files)
        some (le64 serializedMetadata.length ++ serializedMetadata ++
              le64 compressed.length ++ compressed)

/-! ## Decompression (`decompressLZ4Archive`, src/unnamed/part_001) -/

/-- Sum of the `originalSize` fields, the `totalUncompressedSize` of
`decompressLZ4Archive`. -/
def sumSizes (ms : List FileMetadata) : Nat :=
  (ms.map FileMetadata.originalSize).sum

/-- `decompressLZ4Archive` (src/unnamed/part_001 lines 129-239) on the archive
bytes (the source reads them from a file; the byte stream is the same).  Every
failure path of the source returns the empty entry list.  The decompression
primitive `d` stands for `LZ4_decompress_safe`, taking the compressed bytes and
the destination capacity.  Entry data is sliced out of the decompressed buffer
at `dataOffset`, as the `memcpy` in the source does. -/
def decompressLZ4Archive (d : List Nat → Nat → Option (List Nat))
    (archive : List Nat) : List (List Nat × List Nat) :=
  match take64? archive with
  | none => []
  | some (metadataSize, r1) =>
    match takeBytes? metadataSize r1 with
    | none => []
    | some (metadataBuffer, r2) =>
      match deserializeMetadata metadataBuffer with
      | none => []
      | some metadata =>
        match take64? r2 with
        | none => []
        | some (compressedSize, r3) =>
          match takeBytes? compressedSize r3 with
          | none => []
          | some (compressedData, _) =>
            match d compressedData (sumSizes metadata) with
            | none => []
            | some uncompressedData =>
              if uncompressedData.length ≠ sumSizes metadata then []
              else
                metadata.map (fun m =>
                  (m.filename, (uncompressedData.drop m.dataOffset).take m.originalSize))

/-- The metadata section an archive stream frames: the `metadataSize` prefix
followed by that many bytes (steps 2-3 of `decompressLZ4Archive`). -/
def metadataSection (archive : List Nat) : Option (List Nat) :=
  match take64? archive with
  | none => none
  | some (metadataSize, r1) =>
    match takeBytes? metadataSize r1 with
    | none => none
    | some (metadataBuffer, _) => some metadataBuffer

/-- The compressed payload an archive stream frames (steps 5-6 of
`decompressLZ4Archive`). -/
def compressedSection (archive : List Nat) : Option (List Nat) :=
  match take64? archive with
  | none => none
  | some (metadataSize, r1) =>
    match takeBytes? metadataSize r1 with
    | none => none
    | some (_, r2) =>
      match take64? r2 with
      | none => none
      | some (compressedSize, r3) =>
        match takeBytes? compressedSize r3 with
        | none => none
        | some (compressedData, _) => some compressedData

/-- An identity "compressor": stands for a lossless round-tripping codec. -/
def c0id : List Nat → Option (List Nat) := fun payload => some payload

/-- The matching identity "decompressor". -/
def d0id : List Nat → Nat → Option (List Nat) := fun payload _ => some payload

/-- A compressor that reports success but emits bytes no decompressor can
reconstruct anything from (spec scenario "Integrity failure"). -/
def garbageCompressor : List Nat → Option (List Nat) := fun _ => some [9, 9, 9]

/-- A decompressor that rejects its input, as `LZ4_decompress_safe` does on
undecompressible bytes. -/
def rejectingDecompressor : List Nat → Nat → Option (List Nat) := fun _ _ => none

/-! ## File index (src/src/compress/file_index.cpp, src/src/compress/file_set.cpp)

`run` and `setNumber`/`fileNumber` are C++ `int`, modelled as `Int` with
truncating division `Int.tdiv`.  The three `std::map`s of
`MemoryMappedFileIndex` are association lists with in-place update; the claims
settled here do not depend on their iteration order. -/

/-- Mirrors `struct TaskKey` (file_set.hpp). -/
structure TaskKey where
  run : Int
  setNumber : Int
deriving DecidableEq

/-- Mirrors `struct FileSet` (file_set.hpp); `files` is the path set of the
set, here a duplicate-free list. -/
structure FileSet where
  run : Int
  setNumber : Int
  files : List String
  firstFile : String
  processed : Bool
deriving DecidableEq

/-- The C++ default-constructed `FileSet` created by `fileSetMap[taskKey]` for
an absent key: `run = 0`, `setNumber = 0`, empty files, empty `firstFile`,
`processed = false`. -/
def defaultFileSet : FileSet := ⟨0, 0, [], "", false⟩

/-- Association-list lookup (`std::map::find`). -/
def alFind {κ ν : Type} [DecidableEq κ] (k : κ) : List (κ × ν) → Option ν
  | [] => none
  | (k', v) :: rest => if k' = k then some v else alFind k rest

/-- Association-list upsert (`std::map::operator[] =`). -/
def alUpdate {κ ν : Type} [DecidableEq κ] (k : κ) (v : ν) : List (κ × ν) → List (κ × ν)
  | [] => [(k, v)]
  | (k', v') :: rest => if k' = k then (k, v) :: rest else (k', v') :: alUpdate k v rest

/-- `std::set<std::string>::insert`: a no-op when the element is present. -/
def setInsert (x : String) (s : List String) : List String :=
  if x ∈ s then s else s ++ [x]

/-- The three maps of `MemoryMappedFileIndex` (file_index.cpp):
`fileSetMap`, `pathKeyMap` and `fileModTimeMap`. -/
structure IndexState where
  fileSetMap : List (TaskKey × FileSet)
  pathKeyMap : List (String × TaskKey)
  fileModTimeMap : List (String × Int)
deriving DecidableEq

/-- A fresh index (the in-memory state before any file is observed). -/
def emptyIndex : IndexState := ⟨[], [], []⟩

/-- `MemoryMappedFileIndex::calculateTaskKey` (file_index.cpp lines 42-48):
`setNumber = ((fileNumber - 1) / setSize) * setSize + 1` with C++ truncating
`int` division. -/
def calculateTaskKey (setSize : Nat) (run fileNumber : Int) : TaskKey :=
  ⟨run, Int.tdiv (fileNumber - 1) (setSize : Int) * (setSize : Int) + 1⟩

/-- `MemoryMappedFileIndex::addFile` (file_index.cpp lines 50-78): updates the
path and mod-time maps, fetches or default-creates the `FileSet`, overwrites
`run`, `setNumber` and `processed`, inserts the path, and sets `firstFile`
when `fileNumber == taskKey.setNumber`. -/
def addFile (setSize : Nat) (st : IndexState) (path : String) (run fileNumber : Int)
    (modTime : Int) (isProcessed : Bool) : IndexState :=
  let taskKey := calculateTaskKey setSize run fileNumber
  let old := (alFind taskKey st.fileSetMap).getD defaultFileSet
  let upd1 : FileSet :=
    { old with run := taskKey.run, setNumber := taskKey.setNumber, processed := isProcessed }
  let upd2 : FileSet := { upd1 with files := setInsert path upd1.files }
  let upd3 : FileSet :=
    if fileNumber = taskKey.setNumber then { upd2 with firstFile := path } else upd2
  { fileSetMap := alUpdate taskKey upd3 st.fileSetMap,
    pathKeyMap := alUpdate path taskKey st.pathKeyMap,
    fileModTimeMap := alUpdate path modTime st.fileModTimeMap }

/-- `MemoryMappedFileIndex::hasFileChanged` (file_index.cpp lines 80-91). -/
def hasFileChanged (st : IndexState) (path : String) (modTime : Int) : Bool :=
  match alFind path st.fileModTimeMap with
  | some t => t != modTime
  | none => true

/-- `MemoryMappedFileIndex::markFileSetProcessed` (file_index.cpp
lines 109-117). -/
def markFileSetProcessed (st : IndexState) (taskKey : TaskKey) (processed : Bool) :
    IndexState :=
  match alFind taskKey st.fileSetMap with
  | some fs =>
    { st with fileSetMap := alUpdate taskKey { fs with processed := processed } st.fileSetMap }
  | none => st

/-- `MemoryMappedFileIndex::getFileSet` (file_index.cpp lines 137-147). -/
def getFileSet (st : IndexState) (taskKey : TaskKey) : Option FileSet :=
  alFind taskKey st.fileSetMap

/-- `MemoryMappedFileIndex::getAllFileSets` (file_index.cpp lines 119-135):
snapshot of the sets, optionally dropping processed ones. -/
def getAllFileSets (st : IndexState) (includeProcessed : Bool) : List FileSet :=
  (st.fileSetMap.map Prod.snd).filter (fun fs => includeProcessed || !fs.processed)

/-- `isSetComplete` (file_set.cpp lines 87-90): note the `>=` comparison
`fileSet.files.size() >= static_cast<size_t>(setSize)`. -/
def isSetComplete (fs : FileSet) (setSize : Nat) : Bool :=
  decide (setSize ≤ fs.files.length)

/-- The index operations a scan/scheduler interleaving performs: `addFile`
calls and `markFileSetProcessed` calls. -/
inductive IndexOp where
  | add (path : String) (run fileNumber modTime : Int) (isProcessed : Bool)
  | mark (taskKey : TaskKey) (processed : Bool)
deriving DecidableEq

/-- Apply one index operation. -/
def applyOp (setSize : Nat) (st : IndexState) : IndexOp → IndexState
  | .add path run fileNumber modTime isProcessed =>
      addFile setSize st path run fileNumber modTime isProcessed
  | .mark taskKey processed => markFileSetProcessed st taskKey processed

/-- Apply a sequence of index operations in order. -/
def applyOps (setSize : Nat) (st : IndexState) (ops : List IndexOp) : IndexState :=
  ops.foldl (applyOp setSize) st

/-- An `add` operation is consistent with a per-path frame assignment `rf`
when its run and file number are the ones `rf` gives its path.  In the
archiver these are parsed from the filename, so one path always carries one
`(run, fileNumber)` pair. -/
def opConsistent (rf : String → Int × Int) : IndexOp → Bool
  | .add path run fileNumber _ _ => run == (rf path).1 && fileNumber == (rf path).2
  | .mark _ _ => true

/-- Frame numbers in the archiver's filename grammar start at 1. -/
def opFramePositive : IndexOp → Bool
  | .add _ _ fileNumber _ _ => decide (1 ≤ fileNumber)
  | .mark _ _ => true

/-- The paths of the `add` operations of a sequence. -/
def addPaths : List IndexOp → List String
  | [] => []
  | .add p _ _ _ _ :: rest => p :: addPaths rest
  | .mark _ _ :: rest => addPaths rest

/-- A path property holding for every path an operation adds. -/
def opPathProp (PF : String → Prop) : IndexOp → Prop
  | .add p _ _ _ _ => PF p
  | .mark _ _ => True

/-- The index invariant maintained by `addFile` and `markFileSetProcessed`:
a `fileSetMap` entry carries the key in its `run`/`setNumber` fields, its path
list is duplicate-free, and every member path computes (through the per-path
frame assignment `rf`) the entry's own key and satisfies `PF`. -/
def goodEntry (setSize : Nat) (rf : String → Int × Int) (PF : String → Prop)
    (e : TaskKey × FileSet) : Prop :=
  e.2.run = e.1.run ∧ e.2.setNumber = e.1.setNumber ∧ e.2.files.Nodup ∧
    ∀ p ∈ e.2.files, calculateTaskKey setSize (rf p).1 (rf p).2 = e.1 ∧ PF p

/-- A concrete frame assignment for witnesses: path "a" is frame (1,1), every
other path is frame (1,2). -/
def rf0 : String → Int × Int := fun p => if p = "a" then (1, 1) else (1, 2)

/-- A concrete operation sequence for witnesses: two frames of run 1. -/
def ops0 : List IndexOp :=
  [IndexOp.add "a" 1 1 5 false, IndexOp.add "b" 1 2 6 false]

/-! ## Directory monitor (src/unnamed/part_009) -/

/-- A directory entry as the incremental scan sees it after the regex match
and `std::stoi` parsing of `performIncrementalScan` (part_009 lines 258-278):
its path, parsed run and file number, and modification time. -/
structure ScanEntry where
  path : String
  run : Int
  fileNumber : Int
  modTime : Int
deriving DecidableEq

/-- The scanner-facing state: the index plus the task queue. -/
structure MonitorState where
  index : IndexState
  taskQueue : List TaskKey
deriving DecidableEq

/-- `IndexedDirectoryMonitor::enqueueTask` (part_009 lines 414-422): pushes
the key onto the queue unconditionally — there is no duplicate check and no
`enqueued` set in the implementation. -/
def enqueueTask (st : MonitorState) (run setNumber : Int) : MonitorState :=
  { st with taskQueue := st.taskQueue ++ [⟨run, setNumber⟩] }

/-- Ordered insert into the `std::set<TaskKey> updatedSets` of
`performIncrementalScan` (ordered by `TaskKey::operator<`). -/
def keyInsert (k : TaskKey) : List TaskKey → List TaskKey
  | [] => [k]
  | k' :: rest =>
    if k = k' then k' :: rest
    else if k.run < k'.run ∨ (k.run = k'.run ∧ k.setNumber < k'.setNumber) then
      k :: k' :: rest
    else k' :: keyInsert k rest

/-- `IndexedDirectoryMonitor::performIncrementalScan` (part_009 lines
249-354): for every matching directory entry whose modification time changed,
`addFile(..., false)` is called and the entry's `TaskKey` recorded; afterwards
every recorded key whose set is complete (`files.size() >= setSize`) and not
processed is enqueued via `enqueueTask` — which never checks for
duplicates. -/
def performIncrementalScan (setSize : Nat) (st : MonitorState) (dir : List ScanEntry) :
    MonitorState :=
  let scanned := dir.foldl
    (fun (acc : IndexState × List TaskKey) e =>
      if hasFileChanged acc.1 e.path e.modTime then
        (addFile setSize acc.1 e.path e.run e.fileNumber e.modTime false,
         keyInsert (calculateTaskKey setSize e.run e.fileNumber) acc.2)
      else acc)
    (st.index, [])
  scanned.2.foldl
    (fun (ms : MonitorState) key =>
      match getFileSet ms.index key with
      | none => ms
      | some testSet =>
        if isSetComplete testSet setSize && !testSet.processed then
          enqueueTask ms key.run key.setNumber
        else ms)
    { index := scanned.1, taskQueue := st.taskQueue }

/-! ## Safe deleter (src/src/compress/fast_delete_queue.cpp,
src/src/compress/file_processor.cpp) -/

/-- Mirrors `WindowsFastDeleteQueue::DeleteTask` (part_010 lines 555-559). -/
structure DeleteTask where
  files : List String
  firstFile : String
deriving DecidableEq

/-- `WindowsFastDeleteQueue::push` (fast_delete_queue.cpp lines 259-281)
builds a task from the file list and the `firstFile` argument. -/
def pushDeleteTask (files : List String) (firstFile : String) : DeleteTask :=
  ⟨files, firstFile⟩

/-- The delete task `processFileSet` enqueues (file_processor.cpp line 59):
`deleteQueue->push(fileSet.files)` — the `firstFile` parameter is left at its
declared default `""` (part_010 lines 583-584), not at the set's
`firstFile`. -/
def processFileSetDeleteTask (fs : FileSet) : DeleteTask :=
  pushDeleteTask fs.files ""

/-- The file-system facts `isSafeToDelete` consults: `fs::exists` and
`fs::is_regular_file`. -/
structure FsView where
  pathExists : String → Bool
  isRegularFile : String → Bool

/-- `fs::path::filename()`: the component after the last directory separator
(`'/'` or `'\\'`, as on the Windows build this code is compiled for). -/
def filenameOf (path : String) : String :=
  ⟨(path.data.reverse.takeWhile (fun c => c != '/' && c != '\\')).reverse⟩

/-- `fs::path::extension()` on a path, computed on its filename component:
the suffix from the last dot, `""` when there is no dot, when the dot leads,
or for "." and "..". -/
def extensionOf (path : String) : String :=
  let name := filenameOf path
  if name = "." ∨ name = ".." then ""
  else
    let tail := (name.data.reverse.takeWhile (fun c => c != '.')).reverse
    if tail.length = name.data.length then ""
    else if name.data.length = tail.length + 1 then ""
    else ⟨'.' :: tail⟩

/-- The last 13 characters demanded by the safety regex
`.*_[0-9]{2}_[0-9]{5}\.tif$`: an underscore, two digits, an underscore, five
digits and `.tif`. -/
def safetySuffixOK : List Char → Bool
  | ['_', d1, d2, '_', e1, e2, e3, e4, e5, '.', 't', 'i', 'f'] =>
      d1.isDigit && d2.isDigit && e1.isDigit && e2.isDigit && e3.isDigit &&
        e4.isDigit && e5.isDigit
  | _ => false

/-- Full-match semantics of the safety regex on the filename: the leading
`.*` absorbs everything before the final 13-character suffix. -/
def matchesSafetyPattern (name : String) : Bool :=
  decide (13 ≤ name.data.length) && safetySuffixOK (name.data.drop (name.data.length - 13))

/-- `WindowsFastDeleteQueue::isSafeToDelete` (fast_delete_queue.cpp lines
125-162): the file must exist, be a regular file, have extension `.tif`, and
its filename must match the safety pattern. -/
def isSafeToDelete (fsys : FsView) (filePath : String) : Bool :=
  fsys.pathExists filePath && fsys.isRegularFile filePath &&
    extensionOf filePath == ".tif" && matchesSafetyPattern (filenameOf filePath)

/-- The filtering step of `WindowsFastDeleteQueue::worker` (fast_delete_queue.cpp
lines 190-206): drop the path equal to `task.firstFile`, keep the paths that
pass `isSafeToDelete`; the survivors are the ones the worker unlinks. -/
def workerSafeFilesToDelete (fsys : FsView) (task : DeleteTask) : List String :=
  task.files.filter (fun filePath => !(filePath == task.firstFile) && isSafeToDelete fsys filePath)

/-- A file-system view in which every path exists as a regular file. -/
def fsAllExist : FsView := ⟨fun _ => true, fun _ => true⟩

/-! ## Non-Windows delete queue (`BasicDeleteQueue`,
fast_delete_queue.cpp lines 289-311) -/

/-- Mirrors `BasicDeleteQueue` (part_010 lines 591-606): just a queue of file
lists; the class starts no worker thread and has no dequeue operation. -/
structure BasicDeleteQueue where
  tasks : List (List String)
deriving DecidableEq

/-- `BasicDeleteQueue::push` (fast_delete_queue.cpp lines 292-303): appends
the file list; the `firstFile` argument is ignored. -/
def BasicDeleteQueue.push (q : BasicDeleteQueue) (files : List String)
    (firstFile : String) : BasicDeleteQueue :=
  ⟨q.tasks ++ [files]⟩

/-- `BasicDeleteQueue::size` (fast_delete_queue.cpp lines 305-309). -/
def BasicDeleteQueue.size (q : BasicDeleteQueue) : Nat := q.tasks.length

/-- The mutating interface of `BasicDeleteQueue` is `push` alone. -/
inductive BasicDeleteOp where
  | push (files : List String) (firstFile : String)
deriving DecidableEq

/-- Apply a sequence of `BasicDeleteQueue` operations. -/
def applyBasicDeleteOps (q : BasicDeleteQueue) (ops : List BasicDeleteOp) : BasicDeleteQueue :=
  ops.foldl (fun q op => match op with | .push files firstFile => q.push files firstFile) q

/-! ## TIFF merge (`mergeTiffFilesWithLibTiff`,
src/src/decompress/tiff_processor.cpp lines 430-532)

Pixel values are C `float`; the merge claims concern which frames are summed,
in which order, and the sentinel substitution — not rounding — so the pixel
type `F` and its operations are parameters collected in `MergeEnv`, applied in
exactly the order the source applies them. -/

/-- The float operations and constants the merge loop uses: `+`, the initial
`0.0f`, `<` and `==` comparisons, the threshold `-1.0f * integ_frame_num`, and
the sentinels `-1.0f` and `-2.0f`. -/
structure MergeEnv (F : Type) where
  add : F → F → F
  zero : F
  flt : F → F → Bool
  feq : F → F → Bool
  negThreshold : F
  negOne : F
  negTwo : F

/-- Element-wise `merged_images[i][p] += img[p]` over a whole row buffer. -/
def vecAdd {F : Type} (env : MergeEnv F) (a b : List F) : List F :=
  List.zipWith env.add a b

/-- The loop state of `mergeTiffFilesWithLibTiff`: the `size_initialized`
flag, the pixel count `width * height`, and the `merged_images` buffers. -/
structure MergeState (F : Type) where
  sizeInitialized : Bool
  npix : Nat
  merged : List (List F)

/-- One iteration of the double loop (tiff_processor.cpp lines 454-500) at
phase `t`, group `i`: look up frame `s_img + i * P + t`; on the first
successful read initialize the dimensions and zero all group buffers; skip
frames of the wrong size; otherwise accumulate into group `i`.  A missing or
unreadable frame (`none`) is skipped, as the `continue`s do. -/
def mergeStep {F : Type} (env : MergeEnv F) (incSet : Nat)
    (frame : Nat → Option (List F)) (sImg P t i : Nat) (st : MergeState F) :
    MergeState F :=
  match frame (sImg + i * P + t) with
  | none => st
  | some img =>
    let st1 := if st.sizeInitialized then st
      else ⟨true, img.length, List.replicate incSet (List.replicate img.length env.zero)⟩
    if img.length ≠ st1.npix then st1
    else { st1 with merged := st1.merged.set i (vecAdd env (st1.merged.getD i []) img) }

/-- The inner `for (i = 0; i < inc_set; ++i)` loop at phase `t`. -/
def mergeInner {F : Type} (env : MergeEnv F) (incSet : Nat)
    (frame : Nat → Option (List F)) (sImg P t : Nat) (st : MergeState F) :
    MergeState F :=
  (List.range incSet).foldl (fun st i => mergeStep env incSet frame sImg P t i st) st

/-- The outer `for (t = 0; t < integ_frame_num; ++t)` loop, starting from
default-constructed (empty) group buffers. -/
def mergeLoop {F : Type} (env : MergeEnv F) (incSet : Nat)
    (frame : Nat → Option (List F)) (sImg P : Nat) : MergeState F :=
  (List.range P).foldl (fun st t => mergeInner env incSet frame sImg P t st)
    ⟨false, 0, List.replicate incSet []⟩

/-- The sentinel substitution (tiff_processor.cpp lines 510-517): pixels equal
to the threshold `-1.0f * P` become `-1.0f`, pixels below it become `-2.0f`. -/
def sentinelMap {F : Type} (env : MergeEnv F) (v : List F) : List F :=
  v.map (fun x =>
    if env.feq x env.negThreshold then env.negOne
    else if env.flt x env.negThreshold then env.negTwo else x)

/-- `static_cast<int>(std::round(double(a) / b))` for the nonnegative operands
used here: rounding half away from zero. -/
def roundDiv (a b : Nat) : Nat := (2 * a + b) / (2 * b)

/-- `mergeTiffFilesWithLibTiff` reduced to its pixel arithmetic: the group
buffers after the double loop and the sentinel pass, group by group.  The
frame lookup `frame idx` stands for the `file_map` lookup of the entry named
`prefix_with_run + zeroPad(idx, 5) + ".tif"` combined with `readTiffFloat`;
`inc_set = round((e_img - s_img + 1) / P)` as in the source (lines 438-439).
Groups left empty are skipped by the output loop; `sentinelMap` is the
identity on them. -/
def mergeTiffFilesWithLibTiff {F : Type} (env : MergeEnv F)
    (frame : Nat → Option (List F)) (sImg eImg P : Nat) : List (List F) :=
  let incSet := roundDiv (eImg - sImg + 1) P
  ((mergeLoop env incSet frame sImg P).merged).map (sentinelMap env)

/-- The specification's element-wise sum for output group `i`: fold the
frames `s_img + i * P + t` for `t ∈ [0, P)` in order onto a zero buffer of `L`
pixels. -/
def groupSum {F : Type} (env : MergeEnv F) (frame : Nat → Option (List F))
    (sImg P L i : Nat) : List F :=
  (List.range P).foldl (fun acc t => vecAdd env acc ((frame (sImg + i * P + t)).getD []))
    (List.replicate L env.zero)

/-- Integer pixels: a concrete instance of the merge environment for phase
count 2 (threshold `-2`). -/
def envInt : MergeEnv Int :=
  ⟨Int.add, 0, fun a b => decide (a < b), fun a b => decide (a = b), -2, -1, -2⟩

/-- Concrete frames 1..4, one pixel each. -/
def frame0 : Nat → Option (List Int) :=
  fun n => if n = 0 ∨ 5 ≤ n then none else some [Int.ofNat n]

/-! ## Byte-level lemmas -/

theorem take32_le32 (n : Nat) (rest : List Nat) :
    take32? (le32 n ++ rest) = some (n % 4294967296, rest) := by
  simp only [le32, List.cons_append, List.nil_append, take32?, readLE]
  refine congrArg (fun v => some (v, rest)) ?_
  omega

theorem take64_le64 (n : Nat) (rest : List Nat) :
    take64? (le64 n ++ rest) = some (n % 18446744073709551616, rest) := by
  simp only [le64, List.cons_append, List.nil_append, take64?, readLE]
  refine congrArg (fun v => some (v, rest)) ?_
  omega

theorem takeBytes_append (l rest : List Nat) :
    takeBytes? l.length (l ++ rest) = some (l, rest) := by
  simp [takeBytes?]

theorem drop_take_middle {α : Type} (pre mid post : List α) :
    ((pre ++ (mid ++ post)).drop pre.length).take mid.length = mid := by
  rw [List.drop_left, List.take_left]

/-! ## Metadata parse-of-print lemmas -/

theorem parseEntry_serializeEntry (m : FileMetadata) (rest : List Nat)
    (h1 : m.filename.length < 4294967296) (h2 : m.extension.length < 4294967296)
    (h3 : m.originalSize < 18446744073709551616)
    (h4 : m.dataOffset < 18446744073709551616) :
    parseEntry (serializeEntry m ++ rest) = some (m, rest) := by
  simp only [serializeEntry, parseEntry, List.append_assoc, take32_le32, takeBytes_append,
    take64_le64, Nat.mod_eq_of_lt h1, Nat.mod_eq_of_lt h2, Nat.mod_eq_of_lt h3,
    Nat.mod_eq_of_lt h4]

theorem parseEntries_serializeList (ms : List FileMetadata) (rest : List Nat)
    (h : ∀ m ∈ ms, m.filename.length < 4294967296 ∧ m.extension.length < 4294967296 ∧
      m.originalSize < 18446744073709551616 ∧ m.dataOffset < 18446744073709551616) :
    parseEntries ms.length ((ms.map serializeEntry).flatten ++ rest) = some (ms, rest) := by
  induction ms generalizing rest with
  | nil => simp [parseEntries]
  | cons m tail ih =>
    obtain ⟨h1, h2, h3, h4⟩ := h m (by simp)
    have htail := ih rest (fun x hx => h x (by simp [hx]))
    simp only [List.map_cons, List.flatten_cons, List.length_cons, List.append_assoc,
      parseEntries, parseEntry_serializeEntry m _ h1 h2 h3 h4, htail]

theorem deserializeMetadata_serializeMetadata (ms : List FileMetadata)
    (hcount : ms.length < 18446744073709551616)
    (h : ∀ m ∈ ms, m.filename.length < 4294967296 ∧ m.extension.length < 4294967296 ∧
      m.originalSize < 18446744073709551616 ∧ m.dataOffset < 18446744073709551616) :
    deserializeMetadata (serializeMetadata ms) = some ms := by
  have hentries := parseEntries_serializeList ms [] h
  rw [List.append_nil] at hentries
  simp only [serializeMetadata, deserializeMetadata, List.append_assoc, take32_le32,
    take64_le64, Nat.mod_eq_of_lt hcount, hentries]
  norm_num [LZ4_ARCHIVE_MAGIC, LZ4_ARCHIVE_VERSION]

/-! ## Payload and metadata-table lemmas -/

theorem payloadOf_cons (name data : List Nat) (rest : List (List Nat × List Nat)) :
    payloadOf ((name, data) :: rest) = data ++ payloadOf rest := by
  simp [payloadOf]

theorem length_takeWhile_le' {α : Type} (p : α → Bool) (l : List α) :
    (l.takeWhile p).length ≤ l.length := by
  induction l with
  | nil => simp
  | cons a l ih =>
    rw [List.takeWhile_cons]
    cases p a <;> simp <;> try omega

theorem extOf_length_le (name : List Nat) : (extOf name).length ≤ name.length := by
  unfold extOf
  split
  · simp
  · split
    · simp
    · split
      · simp
      · rename_i hne _
        have hle : ((name.reverse.takeWhile (fun b => b ≠ 46)).reverse).length ≤ name.length := by
          calc ((name.reverse.takeWhile (fun b => b ≠ 46)).reverse).length
              = (name.reverse.takeWhile (fun b => b ≠ 46)).length := List.length_reverse _
            _ ≤ name.reverse.length := length_takeWhile_le' _ _
            _ = name.length := List.length_reverse _
        simp only [List.length_cons]
        omega

theorem sumSizes_cons (m : FileMetadata) (ms : List FileMetadata) :
    sumSizes (m :: ms) = m.originalSize + sumSizes ms := by
  simp [sumSizes]

theorem sumSizes_buildMetadataFrom (files : List (List Nat × List Nat)) :
    ∀ off : Nat, sumSizes (buildMetadataFrom off files) = (payloadOf files).length := by
  induction files with
  | nil => intro off; simp [buildMetadataFrom, sumSizes, payloadOf]
  | cons f rest ih =>
    intro off
    obtain ⟨name, data⟩ := f
    simp [buildMetadataFrom, sumSizes_cons, payloadOf_cons, ih]

theorem buildMetadataFrom_bounds (files : List (List Nat × List Nat)) :
    ∀ off : Nat, ∀ m ∈ buildMetadataFrom off files,
      (∃ f ∈ files, m.filename = f.1 ∧ m.extension = extOf f.1) ∧
      m.dataOffset + m.originalSize ≤ off + (payloadOf files).length := by
  induction files with
  | nil => intro off m hm; simp [buildMetadataFrom] at hm
  | cons f rest ih =>
    intro off m hm
    obtain ⟨name, data⟩ := f
    simp only [buildMetadataFrom, List.mem_cons] at hm
    rcases hm with hm | hm
    · subst hm
      refine ⟨⟨(name, data), by simp, rfl, rfl⟩, ?_⟩
      simp only [payloadOf_cons, List.length_append]
      omega
    · obtain ⟨⟨g, hg, hg1, hg2⟩, hb⟩ := ih (off + data.length) m hm
      refine ⟨⟨g, by simp [hg], hg1, hg2⟩, ?_⟩
      simp only [payloadOf_cons, List.length_append]
      omega

theorem buildMetadataFrom_slices (files : List (List Nat × List Nat)) :
    ∀ pre : List Nat,
      (buildMetadataFrom pre.length files).map
          (fun m => (m.filename, ((pre ++ payloadOf files).drop m.dataOffset).take m.originalSize))
        = files := by
  induction files with
  | nil => intro pre; simp [buildMetadataFrom]
  | cons f rest ih =>
    intro pre
    obtain ⟨name, data⟩ := f
    simp only [buildMetadataFrom, List.map_cons, payloadOf_cons]
    refine congrArg₂ List.cons ?_ ?_
    · exact congrArg (Prod.mk name) (drop_take_middle pre data (payloadOf rest))
    · have hlen : pre.length + data.length = (pre ++ data).length := by simp
      have hassoc : pre ++ (data ++ payloadOf rest) = (pre ++ data) ++ payloadOf rest :=
        (List.append_assoc pre data (payloadOf rest)).symm
      rw [hlen, hassoc]
      exact ih (pre ++ data)

/-! ## Claim C3: compress/decompress round trip -/

/-- C3: for every ordered list of input files with distinct names and
arbitrary byte contents, decompressing the archive produced by
`compressFilesToLZ4` yields exactly the original files as an ordered sequence
of `(name, bytes)` pairs.  The LZ4 block primitives are external; the
hypotheses `hc`/`hd` state the library contract that `LZ4_decompress_safe`
inverts `LZ4_compress_fast` on this payload, and the size hypotheses keep the
`uint32`/`uint64`/`int` casts of the container format lossless. -/
theorem compress_decompress_roundtrip
    (c : List Nat → Option (List Nat)) (d : List Nat → Nat → Option (List Nat))
    (files : List (List Nat × List Nat)) (compressed : List Nat)
    (hne : files ≠ [])
    (hnodup : (files.map Prod.fst).Nodup)
    (hnames : ∀ f ∈ files, (Prod.fst f).length < 4294967296)
    (htotal : (payloadOf files).length < 18446744073709551616)
    (hmeta : (serializeMetadata (buildMetadataFrom 0 files)).length < 18446744073709551616)
    (hmax : (payloadOf files).length ≤ LZ4_MAX_INPUT_SIZE)
    (hc : c (payloadOf files) = some compressed)
    (hclen : compressed.length < 18446744073709551616)
    (hd : d compressed (payloadOf files).length = some (payloadOf files)) :
    compressFilesToLZ4 c files ≠ none ∧
    decompressLZ4Archive d ((compressFilesToLZ4 c files).getD []) = files := by
  have harch : compressFilesToLZ4 c files =
      some (le64 (serializeMetadata (buildMetadataFrom 0 files)).length ++
            serializeMetadata (buildMetadataFrom 0 files) ++
            le64 compressed.length ++ compressed) := by
    simp only [compressFilesToLZ4, hne, if_false, hc]
    rw [if_neg (by omega)]
  have hboundsrec : ∀ m ∈ buildMetadataFrom 0 files,
      m.filename.length < 4294967296 ∧ m.extension.length < 4294967296 ∧
      m.originalSize < 18446744073709551616 ∧ m.dataOffset < 18446744073709551616 := by
    intro m hm
    obtain ⟨⟨f, hf, hfn, hfe⟩, hoff⟩ := buildMetadataFrom_bounds files 0 m hm
    have h1 : m.filename.length < 4294967296 := hfn ▸ hnames f hf
    have h2 : m.extension.length ≤ m.filename.length := by
      rw [hfn, hfe]; exact extOf_length_le f.1
    exact ⟨h1, by omega, by omega, by omega⟩
  have hcount : (buildMetadataFrom 0 files).length < 18446744073709551616 := by
    have hsum := sumSizes_buildMetadataFrom files 0
    have : (buildMetadataFrom 0 files).length ≤
        (serializeMetadata (buildMetadataFrom 0 files)).length := by
      have : ∀ ms : List FileMetadata, ms.length ≤ (serializeMetadata ms).length := by
        intro ms
        simp only [serializeMetadata, List.length_append, le32, le64]
        have : ms.length ≤ ((ms.map serializeEntry).flatten).length := by
          induction ms with
          | nil => simp
          | cons m tail ih =>
            simp only [List.map_cons, List.flatten_cons, List.length_append, List.length_cons]
            have : 1 ≤ (serializeEntry m).length := by
              simp [serializeEntry, le32, le64]
            omega
        simp only [List.length_cons, List.length_nil]
        omega
      exact this _
    omega
  have hmd := deserializeMetadata_serializeMetadata (buildMetadataFrom 0 files) hcount hboundsrec
  refine ⟨by simp [harch], ?_⟩
  rw [harch]
  simp only [Option.getD_some, decompressLZ4Archive, List.append_assoc, take64_le64,
    Nat.mod_eq_of_lt hmeta, takeBytes_append, hmd, Nat.mod_eq_of_lt hclen]
  rw [show takeBytes? compressed.length compressed = some (compressed, []) from by
    simpa using takeBytes_append compressed []]
  rw [sumSizes_buildMetadataFrom files 0]
  simp only [hd]
  rw [if_neg (by omega : ¬ (payloadOf files).length ≠ (payloadOf files).length)]
  have := buildMetadataFrom_slices files []
  simpa using this

/-- Witness for C3 at a concrete one-file list with an identity codec. -/
theorem compress_decompress_roundtrip_witness :
    compressFilesToLZ4 c0id [([97], [1, 2])] ≠ none ∧
    decompressLZ4Archive d0id ((compressFilesToLZ4 c0id [([97], [1, 2])]).getD []) =
      [([97], [1, 2])] :=
  compress_decompress_roundtrip c0id d0id [([97], [1, 2])] [1, 2]
    (by decide) (by decide) (by decide) (by decide) (by decide) (by decide)
    (by decide) (by decide) (by decide)

/-! ## Claim C1: the missing in-memory decompression self-check -/

/-- C1: the claim says `compressFilesToLZ4` invokes the decompressor on the
in-memory archive bytes before writing and fails without writing when the
decompressor cannot reconstruct the entries.  The code has no such check: with
a compressor whose output no decompressor can reconstruct (spec scenario
"Integrity failure"), `compressFilesToLZ4` still produces the archive bytes it
writes to disk, although decompressing them reconstructs 0 of the 1 expected
entries. -/
theorem compressFilesToLZ4_writes_without_selfcheck :
    compressFilesToLZ4 garbageCompressor [([97], [0])] ≠ none ∧
    decompressLZ4Archive rejectingDecompressor
      ((compressFilesToLZ4 garbageCompressor [([97], [0])]).getD []) = [] := by
  decide

/-! ## Claim C8: reader-side error handling -/

theorem take32_shape (md : List Nat) (v : Nat) (r : List Nat)
    (h : take32? md = some (v, r)) : v = readLE (md.take 4) ∧ r = md.drop 4 := by
  match md with
  | b0 :: b1 :: b2 :: b3 :: rest =>
    simp only [take32?, Option.some.injEq, Prod.mk.injEq] at h
    simp [← h.1, ← h.2, List.take, List.drop]
  | [] | [_] | [_, _] | [_, _, _] => simp [take32?] at h

theorem deserializeMetadata_checks (md : List Nat) (ms : List FileMetadata)
    (h : deserializeMetadata md = some ms) :
    readLE (md.take 4) = LZ4_ARCHIVE_MAGIC ∧
    readLE ((md.drop 4).take 4) = LZ4_ARCHIVE_VERSION := by
  unfold deserializeMetadata at h
  rcases h32 : take32? md with _ | ⟨magic, bs1⟩
  · simp [h32] at h
  obtain ⟨hv, hr⟩ := take32_shape md magic bs1 h32
  simp only [h32] at h
  by_cases hmm : magic = LZ4_ARCHIVE_MAGIC
  · simp only [hmm, ne_eq, not_true_eq_false, if_false] at h
    rcases h32b : take32? bs1 with _ | ⟨version, bs2⟩
    · simp [h32b] at h
    obtain ⟨hv2, _⟩ := take32_shape bs1 version bs2 h32b
    simp only [h32b] at h
    by_cases hvv : version = LZ4_ARCHIVE_VERSION
    · constructor
      · rw [← hv]; exact hmm
      · rw [← hr, ← hv2]; exact hvv
    · simp [hvv] at h
  · simp [hmm] at h

/-- C8: `decompressLZ4Archive` returns the empty entry list whenever the
framing or the metadata section is truncated or has a length field exceeding
the remaining bytes (the `none` branches of the parsers), the magic number is
not `LZ4A`, the version is not 1, or the decompressed payload length differs
from the sum of the `originalSize` fields. -/
theorem decompressLZ4Archive_empty_on_malformed
    (d : List Nat → Nat → Option (List Nat)) (archive : List Nat)
    (h : metadataSection archive = none
       ∨ compressedSection archive = none
       ∨ (∃ md, metadataSection archive = some md ∧
            (readLE (md.take 4) ≠ LZ4_ARCHIVE_MAGIC ∨
             readLE ((md.drop 4).take 4) ≠ LZ4_ARCHIVE_VERSION ∨
             deserializeMetadata md = none))
       ∨ (∃ md ms comp u, metadataSection archive = some md ∧
            deserializeMetadata md = some ms ∧
            compressedSection archive = some comp ∧
            d comp (sumSizes ms) = some u ∧ u.length ≠ sumSizes ms)) :
    decompressLZ4Archive d archive = [] := by
  unfold decompressLZ4Archive
  rcases h64 : take64? archive with _ | ⟨metadataSize, r1⟩
  · simp [h64]
  simp only [h64]
  rcases hmb : takeBytes? metadataSize r1 with _ | ⟨md, r2⟩
  · simp [hmb]
  simp only [hmb]
  have hsection : metadataSection archive = some md := by
    simp [metadataSection, h64, hmb]
  rcases hdm : deserializeMetadata md with _ | ms
  · simp [hdm]
  simp only [hdm]
  rcases h64b : take64? r2 with _ | ⟨compressedSize, r3⟩
  · simp [h64b]
  simp only [h64b]
  rcases hcb : takeBytes? compressedSize r3 with _ | ⟨comp, r4⟩
  · simp [hcb]
  simp only [hcb]
  have hcomp : compressedSection archive = some comp := by
    simp [compressedSection, h64, hmb, h64b, hcb]
  rcases hd : d comp (sumSizes ms) with _ | u
  · simp [hd]
  simp only [hd]
  rcases h with hnone | hcnone | ⟨md', hmd', hbad⟩ | ⟨md', ms', comp', u', hmd', hdm', hcomp', hd', hlen⟩
  · rw [hsection] at hnone; exact absurd hnone (by simp)
  · rw [hcomp] at hcnone; exact absurd hcnone (by simp)
  · rw [hsection] at hmd'
    injection hmd' with hmd'
    subst hmd'
    obtain ⟨hmagicok, hversionok⟩ := deserializeMetadata_checks md ms hdm
    rcases hbad with hmagic | hversion | hdnone
    · exact absurd hmagicok hmagic
    · exact absurd hversionok hversion
    · rw [hdm] at hdnone; exact absurd hdnone (by simp)
  · rw [hsection] at hmd'
    injection hmd' with hmd'
    subst hmd'
    rw [hdm] at hdm'
    injection hdm' with hdm'
    subst hdm'
    rw [hcomp] at hcomp'
    injection hcomp' with hcomp'
    subst hcomp'
    rw [hd] at hd'
    injection hd' with hd'
    subst hd'
    rw [if_pos hlen]

/-- Witness for C8: a four-byte stream whose framing cannot be read yields the
empty result. -/
theorem decompressLZ4Archive_empty_on_malformed_witness :
    decompressLZ4Archive d0id [3] = [] :=
  decompressLZ4Archive_empty_on_malformed d0id [3] (Or.inl (by decide))

/-! ## Association-list lemmas -/

theorem alFind_alUpdate_self {κ ν : Type} [DecidableEq κ] (k : κ) (v : ν)
    (m : List (κ × ν)) : alFind k (alUpdate k v m) = some v := by
  induction m with
  | nil => simp [alUpdate, alFind]
  | cons e rest ih =>
    obtain ⟨k', v'⟩ := e
    by_cases hk : k' = k
    · simp [alUpdate, alFind, hk]
    · simp [alUpdate, alFind, hk, ih]

theorem alFind_mem {κ ν : Type} [DecidableEq κ] (k : κ) (v : ν)
    (m : List (κ × ν)) (h : alFind k m = some v) : (k, v) ∈ m := by
  induction m with
  | nil => simp [alFind] at h
  | cons e rest ih =>
    obtain ⟨k', v'⟩ := e
    by_cases hk : k' = k
    · subst hk
      simp [alFind] at h
      simp [h]
    · simp only [alFind, if_neg hk] at h
      exact List.mem_cons_of_mem _ (ih h)

theorem mem_alUpdate {κ ν : Type} [DecidableEq κ] (k : κ) (v : ν)
    (m : List (κ × ν)) (e : κ × ν) (h : e ∈ alUpdate k v m) :
    e = (k, v) ∨ e ∈ m := by
  induction m with
  | nil => simp [alUpdate] at h; simp [h]
  | cons f rest ih =>
    obtain ⟨k', v'⟩ := f
    by_cases hk : k' = k
    · simp only [alUpdate, if_pos hk, List.mem_cons] at h
      rcases h with h | h
      · exact Or.inl h
      · exact Or.inr (List.mem_cons_of_mem _ h)
    · simp only [alUpdate, if_neg hk, List.mem_cons] at h
      rcases h with h | h
      · exact Or.inr (by simp [h])
      · rcases ih h with h | h
        · exact Or.inl h
        · exact Or.inr (List.mem_cons_of_mem _ h)

/-! ## Claim C5: the `processed` flag under `addFile` -/

/-- C5 counterexample: an index whose single set was marked processed (as the
scheduler does on dispatch) is flipped back to unprocessed by a plain
`addFile` call for a path of the set — an operation that is not a
worker-failure revert. -/
theorem addFile_reverts_processed_flag :
    (getFileSet (applyOps 1 emptyIndex
        [IndexOp.add "p" 1 1 10 false, IndexOp.mark ⟨1, 1⟩ true]) ⟨1, 1⟩).map
        FileSet.processed = some true ∧
    (getFileSet (applyOps 1 emptyIndex
        [IndexOp.add "p" 1 1 10 false, IndexOp.mark ⟨1, 1⟩ true,
         IndexOp.add "p" 1 1 20 false]) ⟨1, 1⟩).map FileSet.processed = some false := by
  decide

/-- C5 amended: `addFile` unconditionally overwrites the set's `processed`
flag with its `isProcessed` argument (file_index.cpp line 66), so any later
scan's `addFile(..., false)` for a changed path of a processed set resets the
flag — not only a worker-failure `markFileSetProcessed(key, false)`. -/
theorem addFile_sets_processed (setSize : Nat) (st : IndexState) (path : String)
    (run fileNumber modTime : Int) (isProcessed : Bool) :
    ∃ fs, getFileSet (addFile setSize st path run fileNumber modTime isProcessed)
        (calculateTaskKey setSize run fileNumber) = some fs ∧
      fs.processed = isProcessed := by
  unfold getFileSet addFile
  simp only [alFind_alUpdate_self]
  refine ⟨_, rfl, ?_⟩
  split <;> rfl

/-! ## Index invariant (claims C6 and C7) -/

theorem setInsert_nodup (x : String) (s : List String) (h : s.Nodup) :
    (setInsert x s).Nodup := by
  unfold setInsert
  split
  · exact h
  · rename_i hx
    simp [List.nodup_append, h, hx]

theorem mem_setInsert (p x : String) (s : List String) (h : p ∈ setInsert x s) :
    p = x ∨ p ∈ s := by
  unfold setInsert at h
  split at h
  · exact Or.inr h
  · simp only [List.mem_append, List.mem_singleton] at h
    exact h.symm

theorem length_setInsert_le (x : String) (s : List String) :
    (setInsert x s).length ≤ s.length + 1 := by
  unfold setInsert
  split <;> simp

theorem applyOps_goodEntry (setSize : Nat) (rf : String → Int × Int)
    (PF : String → Prop) (ops : List IndexOp) (st : IndexState)
    (hst : ∀ e ∈ st.fileSetMap, goodEntry setSize rf PF e)
    (hops : ∀ op ∈ ops, opConsistent rf op = true ∧ opPathProp PF op) :
    ∀ e ∈ (applyOps setSize st ops).fileSetMap, goodEntry setSize rf PF e := by
  induction ops generalizing st with
  | nil => exact hst
  | cons op rest ih =>
    have hop := hops op (by simp)
    have hstep : ∀ e ∈ (applyOp setSize st op).fileSetMap, goodEntry setSize rf PF e := by
      intro e he
      cases op with
      | add path run fileNumber modTime isProcessed =>
        simp only [applyOp, addFile] at he
        rcases mem_alUpdate _ _ _ _ he with he | he
        · subst he
          obtain ⟨hcons, hpf⟩ := hop
          simp only [opConsistent, Bool.and_eq_true, beq_iff_eq] at hcons
          obtain ⟨hrun, hnum⟩ := hcons
          have hkey : calculateTaskKey setSize (rf path).1 (rf path).2 =
              calculateTaskKey setSize run fileNumber := by rw [hrun, hnum]
          have holdfacts :
              ((alFind (calculateTaskKey setSize run fileNumber) st.fileSetMap).getD
                defaultFileSet).files.Nodup ∧
              ∀ p ∈ ((alFind (calculateTaskKey setSize run fileNumber) st.fileSetMap).getD
                  defaultFileSet).files,
                calculateTaskKey setSize (rf p).1 (rf p).2 =
                  calculateTaskKey setSize run fileNumber ∧ PF p := by
            rcases hold : alFind (calculateTaskKey setSize run fileNumber) st.fileSetMap with
              _ | fs
            · simp [defaultFileSet]
            · obtain ⟨_, _, hnd, hmem⟩ := hst _ (alFind_mem _ _ _ hold)
              simpa using ⟨hnd, hmem⟩
          obtain ⟨hnd, hmem⟩ := holdfacts
          constructor
          · split <;> rfl
          constructor
          · split <;> rfl
          constructor
          · have : (setInsert path
                ((alFind (calculateTaskKey setSize run fileNumber) st.fileSetMap).getD
                  defaultFileSet).files).Nodup := setInsert_nodup _ _ hnd
            split <;> exact this
          · intro p hp
            have hp' : p ∈ setInsert path
                ((alFind (calculateTaskKey setSize run fileNumber) st.fileSetMap).getD
                  defaultFileSet).files := by
              rcases hif : decide (fileNumber = (calculateTaskKey setSize run fileNumber).setNumber)
                with _ | _
              all_goals
                revert hp
                split <;> intro hp <;> exact hp
            rcases mem_setInsert p path _ hp' with hpx | hpx
            · subst hpx
              exact ⟨hkey, hpf⟩
            · exact hmem p hpx
        · exact hst e he
      | mark taskKey processed =>
        rcases hf : alFind taskKey st.fileSetMap with _ | fs
        · simpa only [applyOp, markFileSetProcessed, hf] using hst e (by
            simpa only [applyOp, markFileSetProcessed, hf] using he)
        · simp only [applyOp, markFileSetProcessed, hf] at he
          rcases mem_alUpdate _ _ _ _ he with he | he
          · subst he
            obtain ⟨h1, h2, h3, h4⟩ := hst _ (alFind_mem _ _ _ hf)
            exact ⟨h1, h2, h3, h4⟩
          · exact hst e he
    exact ih (applyOp setSize st op) hstep (fun o ho => hops o (by simp [ho]))

/-! ## Claim C7: every path of a set computes the set's key -/

/-- C7: after any sequence of index operations whose `addFile` calls carry the
run and frame number the path's filename determines (the assignment `rf`),
every `FileSet` returned by `getAllFileSets` contains only paths whose
computed `TaskKey` — `setNumber = ((frameNumber-1) / setSize) * setSize + 1`
paired with `run` — equals the set's own key. -/
theorem getAllFileSets_key_consistent (setSize : Nat) (rf : String → Int × Int)
    (ops : List IndexOp) (includeProcessed : Bool)
    (hops : ∀ op ∈ ops, opConsistent rf op = true) :
    ∀ fs ∈ getAllFileSets (applyOps setSize emptyIndex ops) includeProcessed,
      ∀ p ∈ fs.files,
        calculateTaskKey setSize (rf p).1 (rf p).2 = ⟨fs.run, fs.setNumber⟩ := by
  have hinv := applyOps_goodEntry setSize rf (fun _ => True) ops emptyIndex
    (by simp [emptyIndex])
    (fun op ho => ⟨hops op ho, by cases op <;> trivial⟩)
  intro fs hfs p hp
  simp only [getAllFileSets, List.mem_filter, List.mem_map] at hfs
  obtain ⟨⟨e, he, hsnd⟩, _⟩ := hfs
  obtain ⟨k, v⟩ := e
  obtain ⟨hrun, hsn, _, hmem⟩ := hinv (k, v) he
  subst hsnd
  have hk := (hmem p hp).1
  rw [hk, hrun, hsn]

/-- Witness for C7 at the concrete assignment `rf0`, operations `ops0`, the
set they build, and its path "a". -/
theorem getAllFileSets_key_consistent_witness :
    calculateTaskKey 2 (rf0 "a").1 (rf0 "a").2 = ⟨(1 : Int), (1 : Int)⟩ :=
  getAllFileSets_key_consistent 2 rf0 ops0 false (by decide)
    ⟨1, 1, ["a", "b"], "a", false⟩ (by decide) "a" (by decide)

/-! ## Claim C6: set size bound and completeness -/

/-- C6 counterexample: with `setSize = 1`, two `addFile` calls for distinct
paths carrying the same `(run, frameNumber) = (1, 1)` put both paths into the
set keyed `(1, 1)`: `|files| = 2 > setSize`, and the set is "complete" by
`isSetComplete` (which tests `>=`) although `|files| ≠ setSize`.  Arbitrary
paths, runs and frame numbers therefore do not keep `|files| ≤ setSize`. -/
theorem addFile_exceeds_setSize :
    getFileSet (applyOps 1 emptyIndex
        [IndexOp.add "p" 1 1 0 false, IndexOp.add "q" 1 1 0 false]) ⟨1, 1⟩ =
      some ⟨1, 1, ["p", "q"], "q", false⟩ ∧
    isSetComplete ⟨1, 1, ["p", "q"], "q", false⟩ 1 = true ∧
    ["p", "q"].length ≠ 1 := by
  decide

theorem length_le_of_int_inj (l : List String) (g : String → Int) (s : Nat)
    (hnd : l.Nodup)
    (hinj : ∀ p ∈ l, ∀ q ∈ l, g p = g q → p = q)
    (hrange : ∀ p ∈ l, 0 ≤ g p ∧ g p < (s : Int)) :
    l.length ≤ s := by
  have hmapnd : (l.map (fun p => (g p).toNat)).Nodup := by
    refine List.Nodup.map_on ?_ hnd
    intro p hp q hq heq
    apply hinj p hp q hq
    have h1 := (hrange p hp).1
    have h2 := (hrange q hq).1
    omega
  have hsub : (l.map (fun p => (g p).toNat)).toFinset ⊆ Finset.range s := by
    intro x hx
    simp only [List.mem_toFinset, List.mem_map] at hx
    obtain ⟨p, hp, hpx⟩ := hx
    have hlt := (hrange p hp).2
    have hge := (hrange p hp).1
    simp only [Finset.mem_range]
    omega
  have hcard := Finset.card_le_card hsub
  rw [List.toFinset_card_of_nodup hmapnd, Finset.card_range, List.length_map] at hcard
  exact hcard

theorem frame_offset_range (setSize : Nat) (hpos : 1 ≤ setSize) (run f : Int)
    (k : TaskKey) (hf : 1 ≤ f) (hk : calculateTaskKey setSize run f = k) :
    0 ≤ f - k.setNumber ∧ f - k.setNumber < (setSize : Int) := by
  subst hk
  simp only [calculateTaskKey]
  have hs : (0 : Int) < (setSize : Int) := by exact_mod_cast hpos
  have htd : Int.tdiv (f - 1) (setSize : Int) = (f - 1) / (setSize : Int) :=
    Int.tdiv_eq_ediv (by omega) (by omega)
  rw [htd]
  have hdm : (f - 1) / (setSize : Int) * (setSize : Int) + (f - 1) % (setSize : Int) =
      f - 1 := by
    rw [mul_comm]
    exact Int.ediv_add_emod (f - 1) (setSize : Int)
  have hlt : (f - 1) % (setSize : Int) < (setSize : Int) := Int.emod_lt_of_pos (f - 1) hs
  have hge : (0 : Int) ≤ (f - 1) % (setSize : Int) := Int.emod_nonneg (f - 1) (by omega)
  generalize hB : (f - 1) / (setSize : Int) * (setSize : Int) = B at hdm ⊢
  generalize hR : (f - 1) % (setSize : Int) = R at hdm hlt hge
  omega

theorem mem_addPaths (ops : List IndexOp) (p : String) (r f t : Int) (pr : Bool)
    (h : IndexOp.add p r f t pr ∈ ops) : p ∈ addPaths ops := by
  induction ops with
  | nil => simp at h
  | cons op rest ih =>
    rcases List.mem_cons.mp h with heq | hmem
    · rw [← heq]
      simp [addPaths]
    · cases op with
      | add q a b c d =>
        simp only [addPaths]
        exact List.mem_cons_of_mem _ (ih hmem)
      | mark tk pr2 =>
        simpa only [addPaths] using ih hmem

/-- C6 amended: provided every `addFile` call carries the `(run, frameNumber)`
pair the path's filename determines (`rf`), distinct paths carry distinct
pairs, frame numbers are at least 1 (the filename grammar starts at 00001) and
`setSize ≥ 1`, every set satisfies `|files| ≤ setSize`, and `isSetComplete`
(the `>=` test) holds exactly when `|files| = setSize`.  Without those
restrictions the bound fails, see the counterexample. -/
theorem fileSet_size_le_setSize (setSize : Nat) (rf : String → Int × Int)
    (ops : List IndexOp)
    (hpos : 1 ≤ setSize)
    (hops : ∀ op ∈ ops, opConsistent rf op = true)
    (hframe : ∀ op ∈ ops, opFramePositive op = true)
    (hinj : ∀ p ∈ addPaths ops, ∀ q ∈ addPaths ops, rf p = rf q → p = q) :
    ∀ fs ∈ getAllFileSets (applyOps setSize emptyIndex ops) true,
      fs.files.length ≤ setSize ∧
      (isSetComplete fs setSize = true ↔ fs.files.length = setSize) := by
  have hinv := applyOps_goodEntry setSize rf
      (fun p => p ∈ addPaths ops ∧ 1 ≤ (rf p).2) ops emptyIndex
      (by simp [emptyIndex])
      (by
        intro op ho
        refine ⟨hops op ho, ?_⟩
        cases op with
        | add p r f t pr =>
          have hcons := hops _ ho
          have hfp := hframe _ ho
          simp only [opConsistent, Bool.and_eq_true, beq_iff_eq] at hcons
          simp only [opFramePositive, decide_eq_true_eq] at hfp
          exact ⟨mem_addPaths ops p r f t pr ho, hcons.2 ▸ hfp⟩
        | mark k pr => trivial)
  intro fs hfs
  simp only [getAllFileSets, List.mem_filter, List.mem_map] at hfs
  obtain ⟨⟨e, he, hsnd⟩, _⟩ := hfs
  obtain ⟨k, v⟩ := e
  obtain ⟨_, _, hnd, hmem⟩ := hinv (k, v) he
  subst hsnd
  have hlen : v.files.length ≤ setSize := by
    refine length_le_of_int_inj v.files (fun p => (rf p).2 - k.setNumber) setSize hnd ?_ ?_
    · intro p hp q hq heq
      obtain ⟨hkp, hpf⟩ := hmem p hp
      obtain ⟨hkq, hqf⟩ := hmem q hq
      have hrp : (rf p).1 = k.run := by
        have := congrArg TaskKey.run hkp
        simpa [calculateTaskKey] using this
      have hrq : (rf q).1 = k.run := by
        have := congrArg TaskKey.run hkq
        simpa [calculateTaskKey] using this
      apply hinj p hpf.1 q hqf.1
      have heq2 : (rf p).2 - k.setNumber = (rf q).2 - k.setNumber := heq
      have hsnd' : (rf p).2 = (rf q).2 := by omega
      exact Prod.ext (hrp.trans hrq.symm) hsnd'
    · intro p hp
      obtain ⟨hkp, hpf⟩ := hmem p hp
      exact frame_offset_range setSize hpos (rf p).1 (rf p).2 k hpf.2 hkp
  refine ⟨hlen, ?_⟩
  simp only [isSetComplete, decide_eq_true_eq]
  omega

/-- Witness for the amended C6 at the concrete assignment `rf0`, operations
`ops0`, and the set they build. -/
theorem fileSet_size_le_setSize_witness :
    (⟨1, 1, ["a", "b"], "a", false⟩ : FileSet).files.length ≤ 2 ∧
    (isSetComplete ⟨1, 1, ["a", "b"], "a", false⟩ 2 = true ↔
      (⟨1, 1, ["a", "b"], "a", false⟩ : FileSet).files.length = 2) :=
  fileSet_size_le_setSize 2 rf0 ops0 (by decide) (by decide) (by decide) (by decide)
    ⟨1, 1, ["a", "b"], "a", false⟩ (by decide)

/-! ## Claim C4: duplicate enqueueing across incremental scans -/

/-- C4: the claim says the enqueue path consults a set of already-enqueued
`TaskKey`s so the same key is never queued twice while its set is still
complete and unprocessed.  `enqueueTask` has no such set: with `setSize = 1`,
an incremental scan that sees the frame file of set `(1, 1)` enqueues the key;
a second scan 300 ms later that sees the same file with a changed modification
time — before any worker has run, the set still unprocessed — enqueues the
very same key again, so the queue holds `(1, 1)` twice. -/
theorem performIncrementalScan_double_enqueue :
    (performIncrementalScan 1
        (performIncrementalScan 1 ⟨emptyIndex, []⟩ [⟨"t_01_00001.tif", 1, 1, 100⟩])
        [⟨"t_01_00001.tif", 1, 1, 200⟩]).taskQueue = [⟨1, 1⟩, ⟨1, 1⟩] ∧
    (getFileSet (performIncrementalScan 1
        (performIncrementalScan 1 ⟨emptyIndex, []⟩ [⟨"t_01_00001.tif", 1, 1, 100⟩])
        [⟨"t_01_00001.tif", 1, 1, 200⟩]).index ⟨1, 1⟩).map FileSet.processed =
      some false := by
  decide

/-! ## Claim C2: the firstFile do-not-delete marker -/

/-- C2 counterexample: for a set whose archive was written, the delete task
the processor enqueues does not carry the set's `firstFile` — `processFileSet`
calls `push(fileSet.files)` and the marker defaults to `""` — and the worker's
filter therefore keeps the `firstFile` in its deletion list, so the firstFile
is deleted from the source directory. -/
theorem deleteTask_drops_firstFile_marker :
    (processFileSetDeleteTask
        ⟨1, 1, ["d/t_01_00001.tif", "d/t_01_00002.tif"], "d/t_01_00001.tif", true⟩).firstFile ≠
      "d/t_01_00001.tif" ∧
    "d/t_01_00001.tif" ∈ workerSafeFilesToDelete fsAllExist
      (processFileSetDeleteTask
        ⟨1, 1, ["d/t_01_00001.tif", "d/t_01_00002.tif"], "d/t_01_00001.tif", true⟩) := by
  decide

/-- C2 amended: the delete task enqueued by `processFileSet` carries the empty
string as its do-not-delete marker (the defaulted `firstFile` argument), so
the safe deleter's firstFile exclusion is vacuous for the set's files: the
filtered deletion list is exactly the set's files that pass `isSafeToDelete`
(minus any empty path), firstFile included.  The firstFile survives only as
the copy placed in the output directory. -/
theorem processFileSet_delete_marker_empty (fs : FileSet) (fsys : FsView) :
    (processFileSetDeleteTask fs).firstFile = "" ∧
    workerSafeFilesToDelete fsys (processFileSetDeleteTask fs) =
      fs.files.filter (fun p => !(p == "") && isSafeToDelete fsys p) :=
  ⟨rfl, rfl⟩

/-! ## Claim C10: the non-Windows BasicDeleteQueue -/

/-- C10: `BasicDeleteQueue.push` discards its `firstFile` argument and only
appends; over any operation sequence (the class's mutating interface is
`push` alone — it starts no worker and has no dequeue or unlink) the queue
size never decreases, so no file is ever deleted. -/
theorem basicDeleteQueue_never_deletes (q : BasicDeleteQueue)
    (ops : List BasicDeleteOp) (files : List String) (f1 f2 : String) :
    BasicDeleteQueue.push q files f1 = BasicDeleteQueue.push q files f2 ∧
    (BasicDeleteQueue.push q files f1).size = q.size + 1 ∧
    q.size ≤ (applyBasicDeleteOps q ops).size := by
  refine ⟨rfl, by simp [BasicDeleteQueue.push, BasicDeleteQueue.size], ?_⟩
  induction ops generalizing q with
  | nil => exact Nat.le_refl _
  | cons op rest ih =>
    cases op with
    | push fl ff =>
      have hstep : q.size ≤ (BasicDeleteQueue.push q fl ff).size := by
        simp [BasicDeleteQueue.push, BasicDeleteQueue.size]
      exact hstep.trans (ih (BasicDeleteQueue.push q fl ff))

/-! ## List access lemmas for the merge loop -/

theorem getD_set_self {α : Type} (l : List α) (i : Nat) (x d : α) (h : i < l.length) :
    (l.set i x).getD i d = x := by
  induction l generalizing i with
  | nil => simp at h
  | cons a t ih =>
    cases i with
    | zero => simp
    | succ j =>
      simp only [List.set_cons_succ, List.getD_cons_succ]
      exact ih j (by simpa using h)

theorem getD_set_ne {α : Type} (l : List α) (i j : Nat) (x d : α) (h : i ≠ j) :
    (l.set i x).getD j d = l.getD j d := by
  induction l generalizing i j with
  | nil => simp
  | cons a t ih =>
    cases i with
    | zero =>
      cases j with
      | zero => exact absurd rfl h
      | succ j' => simp
    | succ i' =>
      cases j with
      | zero => simp
      | succ j' =>
        simp only [List.set_cons_succ, List.getD_cons_succ]
        exact ih i' j' (by omega)

theorem getD_replicate {α : Type} (n i : Nat) (a d : α) (h : i < n) :
    (List.replicate n a).getD i d = a := by
  induction n generalizing i with
  | zero => omega
  | succ m ih =>
    cases i with
    | zero => simp [List.replicate]
    | succ j =>
      simp only [List.replicate, List.getD_cons_succ]
      exact ih j (by omega)

theorem getD_map {α β : Type} (f : α → β) (l : List α) (i : Nat) (d : α) (db : β)
    (h : i < l.length) : (l.map f).getD i db = f (l.getD i d) := by
  induction l generalizing i with
  | nil => simp at h
  | cons a t ih =>
    cases i with
    | zero => simp
    | succ j =>
      simp only [List.map_cons, List.getD_cons_succ]
      exact ih j (by simpa using h)

theorem vecAdd_length {F : Type} (env : MergeEnv F) (a b : List F) :
    (vecAdd env a b).length = min a.length b.length := by
  simp [vecAdd]

/-! ## Merge-step reduction lemmas -/

theorem mergeStep_initialized {F : Type} (env : MergeEnv F) (N : Nat)
    (frame : Nat → Option (List F)) (sImg P t i : Nat) (st : MergeState F)
    (img : List F)
    (heq : frame (sImg + i * P + t) = some img)
    (hinit : st.sizeInitialized = true) (hlen : img.length = st.npix) :
    mergeStep env N frame sImg P t i st =
      { st with merged := st.merged.set i (vecAdd env (st.merged.getD i []) img) } := by
  simp [mergeStep, heq, hinit, hlen]

theorem mergeStep_uninitialized {F : Type} (env : MergeEnv F) (N : Nat)
    (frame : Nat → Option (List F)) (sImg P t i : Nat) (st : MergeState F)
    (img : List F)
    (heq : frame (sImg + i * P + t) = some img)
    (hinit : st.sizeInitialized = false) :
    mergeStep env N frame sImg P t i st =
      ⟨true, img.length,
       (List.replicate N (List.replicate img.length env.zero)).set i
         (vecAdd env
           ((List.replicate N (List.replicate img.length env.zero)).getD i []) img)⟩ := by
  simp [mergeStep, heq, hinit]

theorem mergeInner_fold_spec {F : Type} (env : MergeEnv F) (N : Nat)
    (frame : Nat → Option (List F)) (sImg P t L : Nat) (is : List Nat)
    (st : MergeState F)
    (hinit : st.sizeInitialized = true) (hn : st.npix = L)
    (hlen : st.merged.length = N)
    (hml : ∀ j, j < N → (st.merged.getD j []).length = L)
    (his : ∀ j ∈ is, j < N) (hnd : is.Nodup)
    (hfr : ∀ j ∈ is, (frame (sImg + j * P + t)).isSome = true ∧
        ((frame (sImg + j * P + t)).getD []).length = L) :
    (is.foldl (fun s i => mergeStep env N frame sImg P t i s) st).sizeInitialized = true ∧
    (is.foldl (fun s i => mergeStep env N frame sImg P t i s) st).npix = L ∧
    (is.foldl (fun s i => mergeStep env N frame sImg P t i s) st).merged.length = N ∧
    (∀ j, j < N →
      ((is.foldl (fun s i => mergeStep env N frame sImg P t i s) st).merged.getD j []).length
        = L) ∧
    (∀ j ∈ is,
      (is.foldl (fun s i => mergeStep env N frame sImg P t i s) st).merged.getD j [] =
        vecAdd env (st.merged.getD j []) ((frame (sImg + j * P + t)).getD [])) ∧
    (∀ j, j ∉ is →
      (is.foldl (fun s i => mergeStep env N frame sImg P t i s) st).merged.getD j [] =
        st.merged.getD j []) := by
  induction is generalizing st with
  | nil => exact ⟨hinit, hn, hlen, hml, by simp, fun j _ => rfl⟩
  | cons i0 rest ih =>
    obtain ⟨hsome, hleni⟩ := hfr i0 (by simp)
    obtain ⟨img, heq⟩ := Option.isSome_iff_exists.mp hsome
    have himg : img.length = L := by rw [heq] at hleni; simpa using hleni
    have hstep := mergeStep_initialized env N frame sImg P t i0 st img heq hinit
      (by rw [himg, hn])
    have hi0N : i0 < N := his i0 (by simp)
    have hi0len : i0 < st.merged.length := by rw [hlen]; exact hi0N
    have hfold : (i0 :: rest).foldl (fun s i => mergeStep env N frame sImg P t i s) st =
        rest.foldl (fun s i => mergeStep env N frame sImg P t i s)
          { st with merged := st.merged.set i0 (vecAdd env (st.merged.getD i0 []) img) } := by
      rw [List.foldl_cons, hstep]
    have h1len :
        ({ st with merged := st.merged.set i0 (vecAdd env (st.merged.getD i0 []) img)} :
          MergeState F).merged.length = N := by
      simpa using hlen
    have h1ml : ∀ j, j < N →
        (({ st with merged := st.merged.set i0 (vecAdd env (st.merged.getD i0 []) img)} :
          MergeState F).merged.getD j []).length = L := by
      intro j hj
      by_cases hji : i0 = j
      · subst hji
        show ((st.merged.set i0 (vecAdd env (st.merged.getD i0 []) img)).getD i0 []).length = L
        rw [getD_set_self _ _ _ _ hi0len, vecAdd_length, hml i0 hi0N, himg]
        simp
      · show ((st.merged.set i0 (vecAdd env (st.merged.getD i0 []) img)).getD j []).length = L
        rw [getD_set_ne _ _ _ _ _ hji]
        exact hml j hj
    have hnd' := List.nodup_cons.mp hnd
    have ihres := ih
      { st with merged := st.merged.set i0 (vecAdd env (st.merged.getD i0 []) img) }
      hinit hn h1len h1ml (fun j hj => his j (by simp [hj])) hnd'.2
      (fun j hj => hfr j (by simp [hj]))
    obtain ⟨r1, r2, r3, r4, r5, r6⟩ := ihres
    rw [hfold]
    refine ⟨r1, r2, r3, r4, ?_, ?_⟩
    · intro j hj
      rcases List.mem_cons.mp hj with hji | hjr
      · subst hji
        rw [r6 j hnd'.1]
        show (st.merged.set j (vecAdd env (st.merged.getD j []) img)).getD j [] =
          vecAdd env (st.merged.getD j []) ((frame (sImg + j * P + t)).getD [])
        rw [getD_set_self _ _ _ _ hi0len, heq]
        rfl
      · rw [r5 j hjr]
        have hji : i0 ≠ j := fun hh => hnd'.1 (hh ▸ hjr)
        show vecAdd env ((st.merged.set i0 (vecAdd env (st.merged.getD i0 []) img)).getD j [])
            ((frame (sImg + j * P + t)).getD []) =
          vecAdd env (st.merged.getD j []) ((frame (sImg + j * P + t)).getD [])
        rw [getD_set_ne _ _ _ _ _ hji]
    · intro j hj
      have hj0 : j ∉ rest := fun hh => hj (by simp [hh])
      have hji : i0 ≠ j := fun hh => hj (by simp [hh])
      rw [r6 j hj0]
      show (st.merged.set i0 (vecAdd env (st.merged.getD i0 []) img)).getD j [] =
        st.merged.getD j []
      rw [getD_set_ne _ _ _ _ _ hji]

theorem mergeInner_first {F : Type} (env : MergeEnv F) (N : Nat)
    (frame : Nat → Option (List F)) (sImg P L : Nat)
    (hN : 1 ≤ N)
    (hfr : ∀ j, j < N → (frame (sImg + j * P + 0)).isSome = true ∧
        ((frame (sImg + j * P + 0)).getD []).length = L) :
    (mergeInner env N frame sImg P 0 ⟨false, 0, List.replicate N []⟩).sizeInitialized = true ∧
    (mergeInner env N frame sImg P 0 ⟨false, 0, List.replicate N []⟩).npix = L ∧
    (mergeInner env N frame sImg P 0 ⟨false, 0, List.replicate N []⟩).merged.length = N ∧
    (∀ j, j < N →
      ((mergeInner env N frame sImg P 0 ⟨false, 0, List.replicate N []⟩).merged.getD j []).length
        = L) ∧
    (∀ j, j < N →
      (mergeInner env N frame sImg P 0 ⟨false, 0, List.replicate N []⟩).merged.getD j [] =
        vecAdd env (List.replicate L env.zero) ((frame (sImg + j * P + 0)).getD [])) := by
  obtain ⟨m, rfl⟩ : ∃ m, N = m + 1 := ⟨N - 1, by omega⟩
  obtain ⟨hsome0, hlen0⟩ := hfr 0 (by omega)
  obtain ⟨img0, heq0⟩ := Option.isSome_iff_exists.mp hsome0
  have himg0 : img0.length = L := by rw [heq0] at hlen0; simpa using hlen0
  have hstep0 := mergeStep_uninitialized env (m + 1) frame sImg P 0 0
    ⟨false, 0, List.replicate (m + 1) []⟩ img0 heq0 rfl
  have hunfold : mergeInner env (m + 1) frame sImg P 0 ⟨false, 0, List.replicate (m + 1) []⟩ =
      (List.map Nat.succ (List.range m)).foldl
        (fun s i => mergeStep env (m + 1) frame sImg P 0 i s)
        ⟨true, img0.length,
         (List.replicate (m + 1) (List.replicate img0.length env.zero)).set 0
           (vecAdd env
             ((List.replicate (m + 1) (List.replicate img0.length env.zero)).getD 0 []) img0)⟩ := by
    unfold mergeInner
    rw [List.range_succ_eq_map, List.foldl_cons, hstep0]
  have hzero : ((List.replicate (m + 1) (List.replicate img0.length env.zero)).getD 0 []) =
      List.replicate L env.zero := by
    rw [getD_replicate _ _ _ _ (by omega), himg0]
  have h1len : ((List.replicate (m + 1) (List.replicate img0.length env.zero)).set 0
      (vecAdd env
        ((List.replicate (m + 1) (List.replicate img0.length env.zero)).getD 0 []) img0)).length
      = m + 1 := by
    simp
  have h1ml : ∀ j, j < m + 1 →
      (((List.replicate (m + 1) (List.replicate img0.length env.zero)).set 0
        (vecAdd env
          ((List.replicate (m + 1) (List.replicate img0.length env.zero)).getD 0 []) img0)).getD
        j []).length = L := by
    intro j hj
    by_cases hj0 : (0 : Nat) = j
    · subst hj0
      rw [getD_set_self _ _ _ _ (by simp), hzero, vecAdd_length, himg0]
      simp
    · rw [getD_set_ne _ _ _ _ _ hj0, getD_replicate _ _ _ _ hj, himg0]
      simp
  have hspec := mergeInner_fold_spec env (m + 1) frame sImg P 0 L
    (List.map Nat.succ (List.range m))
    ⟨true, img0.length,
     (List.replicate (m + 1) (List.replicate img0.length env.zero)).set 0
       (vecAdd env
         ((List.replicate (m + 1) (List.replicate img0.length env.zero)).getD 0 []) img0)⟩
    rfl himg0 h1len h1ml
    (by intro j hj; simp only [List.mem_map, List.mem_range] at hj; omega)
    (List.Nodup.map Nat.succ_injective (List.nodup_range m))
    (by
      intro j hj
      simp only [List.mem_map, List.mem_range] at hj
      exact hfr j (by omega))
  obtain ⟨r1, r2, r3, r4, r5, r6⟩ := hspec
  rw [hunfold]
  refine ⟨r1, r2, r3, r4, ?_⟩
  intro j hj
  by_cases hj0 : j = 0
  · subst hj0
    rw [r6 0 (by simp)]
    show ((List.replicate (m + 1) (List.replicate img0.length env.zero)).set 0
      (vecAdd env
        ((List.replicate (m + 1) (List.replicate img0.length env.zero)).getD 0 []) img0)).getD
        0 [] = _
    rw [getD_set_self _ _ _ _ (by simp), hzero, heq0]
    rfl
  · have hjm : j ∈ List.map Nat.succ (List.range m) := by
      simp only [List.mem_map, List.mem_range]
      exact ⟨j - 1, by omega, by omega⟩
    rw [r5 j hjm]
    show vecAdd env
        (((List.replicate (m + 1) (List.replicate img0.length env.zero)).set 0
          (vecAdd env
            ((List.replicate (m + 1) (List.replicate img0.length env.zero)).getD 0 []) img0)).getD
          j []) ((frame (sImg + j * P + 0)).getD []) = _
    rw [getD_set_ne _ _ _ _ _ (fun hh => hj0 hh.symm), getD_replicate _ _ _ _ hj, himg0]

theorem mergeInner_initialized {F : Type} (env : MergeEnv F) (N : Nat)
    (frame : Nat → Option (List F)) (sImg P t L : Nat) (st : MergeState F)
    (hinit : st.sizeInitialized = true) (hn : st.npix = L)
    (hlen : st.merged.length = N)
    (hml : ∀ j, j < N → (st.merged.getD j []).length = L)
    (hfr : ∀ j, j < N → (frame (sImg + j * P + t)).isSome = true ∧
        ((frame (sImg + j * P + t)).getD []).length = L) :
    (mergeInner env N frame sImg P t st).sizeInitialized = true ∧
    (mergeInner env N frame sImg P t st).npix = L ∧
    (mergeInner env N frame sImg P t st).merged.length = N ∧
    (∀ j, j < N → ((mergeInner env N frame sImg P t st).merged.getD j []).length = L) ∧
    (∀ j, j < N → (mergeInner env N frame sImg P t st).merged.getD j [] =
      vecAdd env (st.merged.getD j []) ((frame (sImg + j * P + t)).getD [])) := by
  have hspec := mergeInner_fold_spec env N frame sImg P t L (List.range N) st hinit hn hlen hml
    (by intro j hj; simpa using hj) (List.nodup_range N)
    (by intro j hj; exact hfr j (by simpa using hj))
  obtain ⟨r1, r2, r3, r4, r5, _⟩ := hspec
  exact ⟨r1, r2, r3, r4, fun j hj => r5 j (by simpa using hj)⟩

theorem mergeLoop_spec {F : Type} (env : MergeEnv F) (N : Nat)
    (frame : Nat → Option (List F)) (sImg P L : Nat)
    (hN : 1 ≤ N) (hP : 1 ≤ P)
    (hfr : ∀ t, t < P → ∀ j, j < N → (frame (sImg + j * P + t)).isSome = true ∧
        ((frame (sImg + j * P + t)).getD []).length = L) :
    (mergeLoop env N frame sImg P).merged.length = N ∧
    ∀ j, j < N → (mergeLoop env N frame sImg P).merged.getD j [] =
      (List.range P).foldl
        (fun acc t => vecAdd env acc ((frame (sImg + j * P + t)).getD []))
        (List.replicate L env.zero) := by
  have main : ∀ k, 1 ≤ k → k ≤ P →
      ((List.range k).foldl (fun st t => mergeInner env N frame sImg P t st)
          ⟨false, 0, List.replicate N []⟩).sizeInitialized = true ∧
      ((List.range k).foldl (fun st t => mergeInner env N frame sImg P t st)
          ⟨false, 0, List.replicate N []⟩).npix = L ∧
      ((List.range k).foldl (fun st t => mergeInner env N frame sImg P t st)
          ⟨false, 0, List.replicate N []⟩).merged.length = N ∧
      (∀ j, j < N →
        (((List.range k).foldl (fun st t => mergeInner env N frame sImg P t st)
            ⟨false, 0, List.replicate N []⟩).merged.getD j []).length = L) ∧
      (∀ j, j < N →
        ((List.range k).foldl (fun st t => mergeInner env N frame sImg P t st)
            ⟨false, 0, List.replicate N []⟩).merged.getD j [] =
          (List.range k).foldl
            (fun acc t => vecAdd env acc ((frame (sImg + j * P + t)).getD []))
            (List.replicate L env.zero)) := by
    intro k
    induction k with
    | zero => intro h; omega
    | succ k ihk =>
      intro h1 hkP
      by_cases hk0 : k = 0
      · subst hk0
        obtain ⟨a1, a2, a3, a4, a5⟩ :=
          mergeInner_first env N frame sImg P L hN (hfr 0 (by omega))
        have hone : List.range 1 = [0] := by simp [List.range_succ]
        simp only [hone, List.foldl_cons, List.foldl_nil]
        exact ⟨a1, a2, a3, a4, a5⟩
      · have hk1 : 1 ≤ k := by omega
        obtain ⟨b1, b2, b3, b4, b5⟩ := ihk hk1 (by omega)
        obtain ⟨c1, c2, c3, c4, c5⟩ := mergeInner_initialized env N frame sImg P k L
          ((List.range k).foldl (fun st t => mergeInner env N frame sImg P t st)
            ⟨false, 0, List.replicate N []⟩) b1 b2 b3 b4 (hfr k (by omega))
        simp only [List.range_succ, List.foldl_append, List.foldl_cons, List.foldl_nil]
        refine ⟨c1, c2, c3, c4, ?_⟩
        intro j hj
        rw [c5 j hj, b5 j hj]
  have hmain := main P hP (Nat.le_refl P)
  obtain ⟨_, _, m3, _, m5⟩ := hmain
  exact ⟨m3, m5⟩

/-! ## Claim C9: merge-mode group sums and sentinel substitution -/

/-- C9: in merge mode with phase count `P` over `[s_img, e_img]` and
`inc_set = round((e_img - s_img + 1) / P)` output groups, when every needed
frame is present with `L` pixels, output group `i < inc_set` equals the
element-wise sum of frames `s_img + i * P + t` for `t ∈ [0, P)`, accumulated
in `t` order onto a zero buffer exactly as the code does, followed by the
sentinel substitution (`= -P ↦ -1.0`, `< -P ↦ -2.0`).  Pixel arithmetic (`F`,
`env`) is the code's `float` arithmetic, kept abstract and applied in the
code's operation order. -/
theorem mergeTiffFilesWithLibTiff_group_sum {F : Type} (env : MergeEnv F)
    (frame : Nat → Option (List F)) (sImg eImg P L i : Nat)
    (hP : 1 ≤ P)
    (hi : i < roundDiv (eImg - sImg + 1) P)
    (hframes : ∀ t, t < P → ∀ j, j < roundDiv (eImg - sImg + 1) P →
        (frame (sImg + j * P + t)).isSome = true ∧
        ((frame (sImg + j * P + t)).getD []).length = L) :
    (mergeTiffFilesWithLibTiff env frame sImg eImg P).getD i [] =
      sentinelMap env (groupSum env frame sImg P L i) := by
  have hN : 1 ≤ roundDiv (eImg - sImg + 1) P := by omega
  obtain ⟨hlenN, hval⟩ :=
    mergeLoop_spec env (roundDiv (eImg - sImg + 1) P) frame sImg P L hN hP hframes
  show ((mergeLoop env (roundDiv (eImg - sImg + 1) P) frame sImg P).merged.map
      (sentinelMap env)).getD i [] = sentinelMap env (groupSum env frame sImg P L i)
  rw [getD_map (sentinelMap env) _ i [] [] (by rw [hlenN]; exact hi)]
  rw [hval i hi]
  rfl

/-- Witness for C9: integer pixels, frames 1..4, phase count 2, group 0. -/
theorem mergeTiffFilesWithLibTiff_group_sum_witness :
    (mergeTiffFilesWithLibTiff envInt frame0 1 4 2).getD 0 [] =
      sentinelMap envInt (groupSum envInt frame0 1 2 1 0) :=
  mergeTiffFilesWithLibTiff_group_sum envInt frame0 1 4 2 1 0 (by decide) (by decide)
    (by decide)

end BL02
